import Mathlib

/-!
Shallow embedding of `eole/transforms/fuzzymatch.py`.

The similarity scorer (`rapidfuzz.process.cdist` with `fuzz.ratio`) is an
external capability; it is modelled as an abstract score function
`scorer : String → String → ℚ` together with the documented `score_cutoff`
semantics (raw scores below the cutoff are reported as 0).  The NumPy
helpers used by the source (`np.array_split`, `np.any`, `np.argmax`) are
modelled from their documented semantics.  Everything else is translated
directly from the Python source.
-/

/-- Worker for Python `str.split(sep)`: scan the characters, cutting at every
occurrence of the (nonempty) separator.  The fuel argument, instantiated with
the string length, only serves to make the recursion structural; it never
runs out for a nonempty separator. -/
def splitFuel (sep : List Char) : ℕ → List Char → List Char → List (List Char)
  | _, acc, [] => [acc.reverse]
  | 0, acc, rest => [acc.reverse ++ rest]
  | fuel + 1, acc, c :: rest =>
    if sep.isPrefixOf (c :: rest) then
      acc.reverse :: splitFuel sep fuel [] ((c :: rest).drop sep.length)
    else splitFuel sep fuel (c :: acc) rest

/-- Python `s.split(sep)`: split on every occurrence of the separator. -/
def pySplit (sep s : String) : List String :=
  (splitFuel sep.data s.data.length [] s.data).map String.mk

/-- Python `str.strip()` on character lists: drop whitespace on both ends. -/
def stripChars (cs : List Char) : List Char :=
  ((cs.dropWhile Char.isWhitespace).reverse.dropWhile Char.isWhitespace).reverse

/-- Python `s.strip()`. -/
def pyStrip (s : String) : String := String.mk (stripChars s.data)

/-- Python substring test `needle in hay`, on character lists. -/
def containsSub (needle : List Char) : List Char → Bool
  | [] => needle.isEmpty
  | c :: rest => needle.isPrefixOf (c :: rest) || containsSub needle rest

/-- Python substring test `tok in s` on strings (used for
`self.fuzzy_token in s` in `_get_batch_matches`). -/
def pyContains (tok s : String) : Bool := containsSub tok.data s.data

/-- One row of `process.cdist(plist, tm_sources, scorer=fuzz.ratio,
score_cutoff=threshold)`: the scores of one query `s` against every TM source,
with raw scores below the cutoff reported as 0. -/
def cutoffRow (scorer : String → String → ℚ) (th : ℚ) (tmSrc : List String) (s : String) :
    List ℚ :=
  tmSrc.map (fun t => if scorer s t < th then 0 else scorer s t)

/-- Model of `np.any(results, 1)` applied to one row: some entry is nonzero. -/
def rowAny (r : List ℚ) : Bool := r.any (fun x => decide (x ≠ 0))

/-- Model of `np.argmax` on one row: the index of the first-encountered maximal
entry; `none` on an empty row (NumPy raises `ValueError` there). -/
def rowArgmax : List ℚ → Option ℕ
  | [] => none
  | x :: xs =>
    match rowArgmax xs with
    | none => some 0
    | some j => if xs.getD j 0 ≤ x then some 0 else some (j + 1)

/-- Model of `np.argmax(results, axis=1)`: one argmax per row, failing
(`ValueError`) as soon as some row is empty. -/
def argmaxList : List (List ℚ) → Option (List ℕ)
  | [] => some []
  | r :: rs =>
    match rowArgmax r, argmaxList rs with
    | some a, some tl => some (a :: tl)
    | _, _ => none

/-- Pair every chunk item with its score row, its `np.any` flag and its
`np.argmax` index; this is the parallel indexing `results[idx]`,
`matches[idx]`, `argmax[idx]` performed by the source's item loop. -/
def zipItems : List String → List (List ℚ) → List Bool → List ℕ →
    List (String × List ℚ × Bool × ℕ)
  | s :: ss, r :: rs, m :: ms, a :: tl => (s, r, m, a) :: zipItems ss rs ms tl
  | _, _, _, _ => []

/-- The inner `for idx, s in enumerate(plist)` loop of
`FuzzyMatcher._get_batch_matches`, threading `fuzzy_count`:
items already containing the fuzzy token are skipped; an item with a nonzero
match whose best score is below 100 is augmented with
`s + fuzzy_token + internal_tm[1][argmax[idx]]` unless the quota
`fuzzy_count >= len(batch) * corpus_ratio` is reached, in which case the
loop breaks and the remaining items pass through unchanged. -/
def itemLoop (cap : ℚ) (token : String) (tmTgt : List String) :
    ℕ → List (String × List ℚ × Bool × ℕ) → List String × ℕ
  | fc, [] => ([], fc)
  | fc, (s, r, m, a) :: rest =>
    if pyContains token s then
      let res := itemLoop cap token tmTgt fc rest
      (s :: res.1, res.2)
    else if m = true ∧ r.getD a 0 < 100 then
      if cap ≤ (fc : ℚ) then (s :: rest.map (fun x => x.1), fc)
      else
        let res := itemLoop cap token tmTgt (fc + 1) rest
        ((s ++ token ++ tmTgt.getD a "") :: res.1, res.2)
    else
      let res := itemLoop cap token tmTgt fc rest
      (s :: res.1, res.2)

/-- One iteration of the `for mini_batch in mini_batches` loop of
`_get_batch_matches`: if `fuzzy_count` already meets the cap the chunk is
copied through unmodified; otherwise the chunk is scored
(`process.cdist` + `np.any` + `np.argmax`) and the item loop runs.
`none` models the `np.argmax` `ValueError` on an empty score row. -/
def processChunk (scorer : String → String → ℚ) (th cap : ℚ) (token : String)
    (tmSrc tmTgt : List String) (fc : ℕ) (plist : List String) :
    Option (List String × ℕ) :=
  if cap ≤ (fc : ℚ) then some (plist, fc)
  else
    match argmaxList (plist.map (cutoffRow scorer th tmSrc)) with
    | none => none
    | some amax =>
      some (itemLoop cap token tmTgt fc
        (zipItems plist (plist.map (cutoffRow scorer th tmSrc))
          ((plist.map (cutoffRow scorer th tmSrc)).map rowAny) amax))

/-- Chunk sizes produced by `np.array_split(xs, n)`: `l % n` chunks of size
`l / n + 1` followed by `n - l % n` chunks of size `l / n`. -/
def splitSizes (l n : ℕ) : List ℕ :=
  List.replicate (l % n) (l / n + 1) ++ List.replicate (n - l % n) (l / n)

/-- Cut a list into consecutive chunks of the given sizes. -/
def takeChunks : List ℕ → List α → List (List α)
  | [], _ => []
  | k :: ks, xs => xs.take k :: takeChunks ks (xs.drop k)

/-- Model of `np.array_split(xs, n)`. -/
def arraySplit (xs : List α) (n : ℕ) : List (List α) :=
  takeChunks (splitSizes xs.length n) xs

/-- The fixed `chunk_size = 10000` of `_get_batch_matches`. -/
def chunkSize : ℕ := 10000

/-- The mini-batches of `_get_batch_matches`:
`np.array_split(batch, len(batch) // chunk_size if len(batch) > chunk_size else 1)`. -/
def miniBatchesOf (batch : List String) : List (List String) :=
  arraySplit batch (if chunkSize < batch.length then batch.length / chunkSize else 1)

/-- The chunk loop of `_get_batch_matches`: process the mini-batches in order,
threading `fuzzy_count` and extending `augmented` with each processed chunk. -/
def goChunks (scorer : String → String → ℚ) (th cap : ℚ) (token : String)
    (tmSrc tmTgt : List String) : ℕ → List (List String) → Option (List String × ℕ)
  | fc, [] => some ([], fc)
  | fc, c :: cs =>
    match processChunk scorer th cap token tmSrc tmTgt fc c with
    | none => none
    | some (out, fc1) =>
      match goChunks scorer th cap token tmSrc tmTgt fc1 cs with
      | none => none
      | some (outs, fc2) => some (out ++ outs, fc2)

/-- `FuzzyMatcher._get_batch_matches`: chunked, quota-bounded fuzzy
augmentation of a batch of source strings.  Returns the augmented batch and
the final `fuzzy_count`; `none` models the `np.argmax` `ValueError` raised
when a nonempty chunk is scored against an empty TM. -/
def getBatchMatches (scorer : String → String → ℚ) (th ratio : ℚ) (token : String)
    (tmSrc tmTgt : List String) (batch : List String) : Option (List String × ℕ) :=
  goChunks scorer th ((batch.length : ℚ) * ratio) token tmSrc tmTgt 0 (miniBatchesOf batch)

/-- The whole batch processed as a single chunk with the same cap and a zero
initial count: the reference algorithm the chunked implementation is compared
against (spec §9, chunking as pure pagination). -/
def singleChunkAugment (scorer : String → String → ℚ) (th ratio : ℚ) (token : String)
    (tmSrc tmTgt : List String) (batch : List String) : Option (List String × ℕ) :=
  processChunk scorer th ((batch.length : ℚ) * ratio) token tmSrc tmTgt 0 batch

/-- `FuzzyMatcher._create_tm`, applied to the lines read from the TM file:
each line is split by Python `pair.split(delimiter)` (on every occurrence of
the delimiter) and unpacked into exactly two names — any other field count
raises `ValueError`, modelled as `Except.error` carrying the offending line;
lines whose raw source field is shorter than `tm_unit_min_length` or longer
than `tm_unit_max_length` are skipped; retained fields are stripped. -/
def createTM (delim : String) (minLen maxLen : ℕ) :
    List String → Except String (List String × List String)
  | [] => Except.ok ([], [])
  | line :: rest =>
    match pySplit delim line with
    | [source, target] =>
      if source.length < minLen ∨ maxLen < source.length then
        createTM delim minLen maxLen rest
      else
        match createTM delim minLen maxLen rest with
        | Except.error e => Except.error e
        | Except.ok (srcs, tgts) =>
          Except.ok (pyStrip source :: srcs, pyStrip target :: tgts)
    | _ => Except.error line

/-- A training example as seen by `FuzzyMatchTransform.batch_apply`: the
tokenized source field plus the rest of the record (never touched by the
transform); batch entries are `(example, _, _)` triples. -/
structure TrainEx (α : Type) where
  src : List String
  rest : α
  deriving DecidableEq

/-- The per-example filter of `batch_apply`: the whitespace-joined source if
its character count is strictly between the two bounds, else the empty-string
sentinel. -/
def segmentOf (minLen maxLen : ℕ) (src : List String) : String :=
  if minLen < (String.intercalate " " src).length ∧
      (String.intercalate " " src).length < maxLen then
    String.intercalate " " src
  else ""

/-- The write-back loop of `batch_apply`: overwrite the source field with the
whitespace-split of the fuzzied string exactly when that string is nonempty. -/
def writeBack {α β γ : Type} : List (TrainEx α × β × γ) → List String → List (TrainEx α × β × γ)
  | [], _ => []
  | _ :: _, [] => []
  | e :: es, f :: fs =>
    (if f ≠ "" then ({ src := pySplit " " f, rest := e.1.rest }, e.2.1, e.2.2) else e)
      :: writeBack es fs

/-- `FuzzyMatchTransform.batch_apply`: build the filtered segment list, run
`_get_batch_matches`, assert the lengths agree (`none` models an assertion
failure), and write the non-sentinel results back into the examples. -/
def batchApply {α β γ : Type} (scorer : String → String → ℚ) (th ratio : ℚ)
    (token : String) (tmSrc tmTgt : List String) (minLen maxLen : ℕ)
    (batch : List (TrainEx α × β × γ)) : Option (List (TrainEx α × β × γ)) :=
  match getBatchMatches scorer th ratio token tmSrc tmTgt
      (batch.map (fun e => segmentOf minLen maxLen e.1.src)) with
  | none => none
  | some (fuzzied, _) =>
    if (batch.map (fun e => segmentOf minLen maxLen e.1.src)).length = fuzzied.length then
      some (writeBack batch fuzzied)
    else none

/-- Number of positions at which two lists differ (positions beyond the
shorter list ignored). -/
def diffCount : List String → List String → ℕ
  | a :: as2, b :: bs => (if a = b then 0 else 1) + diffCount as2 bs
  | _, _ => 0

/-- The attribute assignments in the class body of `FuzzyMatchConfig`, in
source order, as (field name, default as written in the source).  Python
class-body semantics: a later assignment to the same attribute name
overwrites the earlier one. -/
def fuzzyMatchConfigFields : List (String × String) :=
  [("tm_path", "None"),
   ("fuzzy_corpus_ratio", "0.1"),
   ("fuzzy_threshold", "70"),
   ("tm_delimiter", "\t"),
   ("fuzzy_token", "｟fuzzy｠"),
   ("fuzzymatch_min_length", "4"),
   ("fuzzymatch_min_length", "70")]

/-- The effective value of a class attribute after executing the class body:
the value of the last assignment to that name, if any. -/
def classFieldValue (fields : List (String × String)) (name : String) : Option String :=
  fields.reverse.lookup name

/-- The config attributes read by `FuzzyMatchTransform._parse_config`. -/
def parseConfigReads : List String :=
  ["tm_path", "fuzzy_corpus_ratio", "fuzzy_threshold", "tm_delimiter",
   "fuzzy_token", "fuzzymatch_min_length", "fuzzymatch_max_length"]

/-- Per-item scoring data: the item together with its cutoff row, its
`np.any` flag and its (defaulted) `np.argmax` index. -/
def mkItem (scorer : String → String → ℚ) (th : ℚ) (tmSrc : List String)
    (s : String) : String × List ℚ × Bool × ℕ :=
  (s, cutoffRow scorer th tmSrc s, rowAny (cutoffRow scorer th tmSrc s),
    (rowArgmax (cutoffRow scorer th tmSrc s)).getD 0)

lemma containsSub_nil_needle (hay : List Char) : containsSub [] hay = true := by
  cases hay <;> simp [containsSub, List.isPrefixOf]

lemma pyContains_empty_tok (s : String) : pyContains "" s = true :=
  containsSub_nil_needle s.data

lemma splitSizes_sum (l n : ℕ) : (splitSizes l n).sum = l := by
  unfold splitSizes
  rcases Nat.eq_zero_or_pos n with h | h
  · subst h
    simp [Nat.mod_zero, Nat.div_zero, List.sum_replicate]
  · have hle : l % n ≤ n := Nat.le_of_lt (Nat.mod_lt _ h)
    rw [List.sum_append, List.sum_replicate, List.sum_replicate, smul_eq_mul, smul_eq_mul,
      Nat.mul_succ, Nat.sub_mul]
    have hab : l % n * (l / n) ≤ n * (l / n) := Nat.mul_le_mul_right _ hle
    have hmd : l % n + n * (l / n) = l := Nat.mod_add_div l n
    omega

lemma takeChunks_join (ks : List ℕ) : ∀ xs : List α, (takeChunks ks xs).join = xs.take ks.sum := by
  induction ks with
  | nil => intro xs; simp [takeChunks]
  | cons k ks ih => intro xs; simp [takeChunks, ih, List.take_add]

lemma arraySplit_join (xs : List α) (n : ℕ) : (arraySplit xs n).join = xs := by
  rw [arraySplit, takeChunks_join, splitSizes_sum, List.take_length]

lemma miniBatchesOf_join (batch : List String) : (miniBatchesOf batch).join = batch :=
  arraySplit_join ..

lemma rowArgmax_ne_none (r : List ℚ) (h : r ≠ []) : ∃ a, rowArgmax r = some a := by
  match r with
  | [] => exact absurd rfl h
  | x :: xs =>
    rcases hxs : rowArgmax xs with _ | j
    · exact ⟨0, by simp only [rowArgmax, hxs]⟩
    · by_cases hle : xs.getD j 0 ≤ x
      · exact ⟨0, by simp only [rowArgmax, hxs, if_pos hle]⟩
      · exact ⟨j + 1, by simp only [rowArgmax, hxs, if_neg hle]⟩

lemma rowArgmax_eq_none (xs : List ℚ) (h : rowArgmax xs = none) : xs = [] := by
  cases xs with
  | nil => rfl
  | cons y ys =>
    obtain ⟨a, ha⟩ := rowArgmax_ne_none (y :: ys) (by simp)
    rw [ha] at h
    exact Option.noConfusion h

lemma rowArgmax_lt (r : List ℚ) : ∀ a, rowArgmax r = some a → a < r.length := by
  induction r with
  | nil => intro a h; simp [rowArgmax] at h
  | cons x xs ih =>
    intro a h
    rcases hxs : rowArgmax xs with _ | j <;> simp only [rowArgmax, hxs] at h
    · simp only [Option.some.injEq] at h
      subst h
      simp
    · by_cases hle : xs.getD j 0 ≤ x
      · rw [if_pos hle] at h
        simp only [Option.some.injEq] at h
        subst h
        simp
      · rw [if_neg hle] at h
        simp only [Option.some.injEq] at h
        subst h
        have := ih j hxs
        simp only [List.length_cons]
        omega

lemma rowArgmax_le (r : List ℚ) : ∀ a, rowArgmax r = some a →
    ∀ j, j < r.length → r.getD j 0 ≤ r.getD a 0 := by
  induction r with
  | nil => intro a h; simp [rowArgmax] at h
  | cons x xs ih =>
    intro a h j hj
    rcases hxs : rowArgmax xs with _ | j0 <;> simp only [rowArgmax, hxs] at h
    · have hnil := rowArgmax_eq_none xs hxs
      subst hnil
      simp only [Option.some.injEq] at h
      subst h
      simp only [List.length_cons, List.length_nil] at hj
      interval_cases j
      simp
    · by_cases hle : xs.getD j0 0 ≤ x
      · rw [if_pos hle] at h
        simp only [Option.some.injEq] at h
        subst h
        cases j with
        | zero => simp
        | succ k =>
          simp only [List.getD_cons_succ, List.getD_cons_zero]
          simp only [List.length_cons] at hj
          exact le_trans (ih j0 hxs k (by omega)) hle
      · rw [if_neg hle] at h
        simp only [Option.some.injEq] at h
        subst h
        cases j with
        | zero =>
          simp only [List.getD_cons_succ, List.getD_cons_zero]
          exact le_of_lt (not_le.mp hle)
        | succ k =>
          simp only [List.getD_cons_succ]
          simp only [List.length_cons] at hj
          exact ih j0 hxs k (by omega)

lemma rowArgmax_first (r : List ℚ) : ∀ a, rowArgmax r = some a →
    ∀ j, j < a → r.getD j 0 < r.getD a 0 := by
  induction r with
  | nil => intro a h; simp [rowArgmax] at h
  | cons x xs ih =>
    intro a h j hj
    rcases hxs : rowArgmax xs with _ | j0 <;> simp only [rowArgmax, hxs] at h
    · simp only [Option.some.injEq] at h
      omega
    · by_cases hle : xs.getD j0 0 ≤ x
      · rw [if_pos hle] at h
        simp only [Option.some.injEq] at h
        omega
      · rw [if_neg hle] at h
        simp only [Option.some.injEq] at h
        subst h
        cases j with
        | zero => simpa using not_le.mp hle
        | succ k =>
          simp only [List.getD_cons_succ]
          exact ih j0 hxs k (by omega)

lemma argmaxList_eq_some (rs : List (List ℚ)) (h : ∀ r ∈ rs, r ≠ []) :
    argmaxList rs = some (rs.map (fun r => (rowArgmax r).getD 0)) := by
  induction rs with
  | nil => rfl
  | cons r rs ih =>
    obtain ⟨a, ha⟩ := rowArgmax_ne_none r (h r (by simp))
    rw [argmaxList, ha, ih (fun r2 hr2 => h r2 (by simp [hr2]))]
    simp [ha]

lemma zipItems_maps (f : String → List ℚ) (g : List ℚ → Bool) (h2 : List ℚ → ℕ) :
    ∀ plist : List String,
      zipItems plist (plist.map f) ((plist.map f).map g) ((plist.map f).map h2) =
        plist.map (fun s => (s, f s, g (f s), h2 (f s))) := by
  intro plist
  induction plist with
  | nil => rfl
  | cons s ss ih => simpa [zipItems, List.map_map] using ih

lemma map_mkItem_fst (scorer : String → String → ℚ) (th : ℚ) (tmSrc : List String)
    (plist : List String) :
    (plist.map (mkItem scorer th tmSrc)).map (fun x => x.1) = plist := by
  induction plist with
  | nil => rfl
  | cons s ss ih => simp only [List.map_cons, ih, mkItem]

lemma itemLoop_skip {cap : ℚ} {token : String} {tmTgt : List String} {fc : ℕ}
    (h : cap ≤ (fc : ℚ)) :
    ∀ data, itemLoop cap token tmTgt fc data = (data.map (fun x => x.1), fc) := by
  intro data
  induction data with
  | nil => simp [itemLoop]
  | cons it rest ih =>
    obtain ⟨s, r, m, a⟩ := it
    simp only [itemLoop, List.map_cons]
    by_cases h1 : pyContains token s = true
    · rw [if_pos h1, ih]
    · rw [if_neg h1]
      by_cases h2 : m = true ∧ r.getD a 0 < 100
      · rw [if_pos h2, if_pos h]
      · rw [if_neg h2, ih]

lemma itemLoop_length (cap : ℚ) (token : String) (tmTgt : List String) :
    ∀ data fc, ((itemLoop cap token tmTgt fc data).1).length = data.length := by
  intro data
  induction data with
  | nil => intro fc; simp [itemLoop]
  | cons it rest ih =>
    intro fc
    obtain ⟨s, r, m, a⟩ := it
    simp only [itemLoop]
    by_cases h1 : pyContains token s = true
    · rw [if_pos h1]
      simp [ih fc]
    · rw [if_neg h1]
      by_cases h2 : m = true ∧ r.getD a 0 < 100
      · rw [if_pos h2]
        by_cases h3 : cap ≤ (fc : ℚ)
        · rw [if_pos h3]
          simp
        · rw [if_neg h3]
          simp [ih (fc + 1)]
      · rw [if_neg h2]
        simp [ih fc]

lemma itemLoop_append (cap : ℚ) (token : String) (tmTgt : List String) :
    ∀ d1 fc d2, itemLoop cap token tmTgt fc (d1 ++ d2) =
      ((itemLoop cap token tmTgt fc d1).1 ++
        (itemLoop cap token tmTgt (itemLoop cap token tmTgt fc d1).2 d2).1,
       (itemLoop cap token tmTgt (itemLoop cap token tmTgt fc d1).2 d2).2) := by
  intro d1
  induction d1 with
  | nil => intro fc d2; simp [itemLoop]
  | cons it rest ih =>
    intro fc d2
    obtain ⟨s, r, m, a⟩ := it
    simp only [List.cons_append, itemLoop]
    by_cases h1 : pyContains token s = true
    · simp only [if_pos h1]
      simp [ih fc d2]
    · simp only [if_neg h1]
      by_cases h2 : m = true ∧ r.getD a 0 < 100
      · by_cases h3 : cap ≤ (fc : ℚ)
        · simp only [if_pos h2, if_pos h3]
          simp [itemLoop_skip h3, List.map_append]
        · simp only [if_pos h2, if_neg h3]
          simp [ih (fc + 1) d2]
      · simp only [if_neg h2]
        simp [ih fc d2]

lemma itemLoop_get (cap : ℚ) (token : String) (tmTgt : List String) :
    ∀ data fc i s r m a, data.get? i = some (s, r, m, a) →
      (itemLoop cap token tmTgt fc data).1.get? i = some s ∨
      (pyContains token s = false ∧ m = true ∧ r.getD a 0 < 100 ∧
       (itemLoop cap token tmTgt fc data).1.get? i =
         some (s ++ token ++ tmTgt.getD a "")) := by
  intro data
  induction data with
  | nil => intro fc i s r m a hi; simp at hi
  | cons it rest ih =>
    intro fc i s r m a hi
    cases i with
    | zero =>
      simp only [List.get?_cons_zero, Option.some.injEq] at hi
      subst hi
      simp only [itemLoop]
      by_cases h1 : pyContains token s = true
      · left
        simp only [if_pos h1, List.get?_cons_zero]
      · simp only [if_neg h1]
        by_cases h2 : m = true ∧ r.getD a 0 < 100
        · by_cases h3 : cap ≤ (fc : ℚ)
          · left
            simp only [if_pos h2, if_pos h3, List.get?_cons_zero]
          · right
            refine ⟨by simpa using h1, h2.1, h2.2, ?_⟩
            simp only [if_pos h2, if_neg h3, List.get?_cons_zero]
        · left
          simp only [if_neg h2, List.get?_cons_zero]
    | succ k =>
      simp only [List.get?_cons_succ] at hi
      obtain ⟨s0, r0, m0, a0⟩ := it
      simp only [itemLoop]
      by_cases h1 : pyContains token s0 = true
      · simp only [if_pos h1, List.get?_cons_succ]
        exact ih fc k s r m a hi
      · simp only [if_neg h1]
        by_cases h2 : m0 = true ∧ r0.getD a0 0 < 100
        · by_cases h3 : cap ≤ (fc : ℚ)
          · left
            simp only [if_pos h2, if_pos h3, List.get?_cons_succ]
            rw [List.get?_map, hi]
            rfl
          · simp only [if_pos h2, if_neg h3, List.get?_cons_succ]
            exact ih (fc + 1) k s r m a hi
        · simp only [if_neg h2, List.get?_cons_succ]
          exact ih fc k s r m a hi

lemma diffCount_self : ∀ l, diffCount l l = 0 := by
  intro l
  induction l with
  | nil => rfl
  | cons x xs ih => simp [diffCount, ih]

lemma strAppend_ne (s token t : String) (htok : token ≠ "") :
    s ++ token ++ t ≠ s := by
  intro he
  have hlen := congrArg String.length he
  have hpos : 0 < token.length := by
    obtain ⟨cs⟩ := token
    cases cs with
    | nil => exact absurd rfl htok
    | cons c cs2 => simp [String.length]
  simp only [String.length_append] at hlen
  omega

lemma itemLoop_count (cap : ℚ) (token : String) (tmTgt : List String) :
    ∀ data fc, (itemLoop cap token tmTgt fc data).2 =
      fc + diffCount (data.map (fun x => x.1)) (itemLoop cap token tmTgt fc data).1 := by
  intro data
  induction data with
  | nil => intro fc; simp [itemLoop, diffCount]
  | cons it rest ih =>
    intro fc
    obtain ⟨s, r, m, a⟩ := it
    simp only [itemLoop, List.map_cons]
    by_cases h1 : pyContains token s = true
    · simp only [if_pos h1]
      show (itemLoop cap token tmTgt fc rest).2 =
        fc + diffCount (s :: rest.map (fun x => x.1)) (s :: (itemLoop cap token tmTgt fc rest).1)
      rw [ih fc]
      simp only [diffCount, eq_self_iff_true, if_true]
      omega
    · simp only [if_neg h1]
      by_cases h2 : m = true ∧ r.getD a 0 < 100
      · by_cases h3 : cap ≤ (fc : ℚ)
        · simp only [if_pos h2, if_pos h3]
          show fc = fc + diffCount (s :: rest.map (fun x => x.1)) (s :: rest.map (fun x => x.1))
          rw [diffCount_self]
          omega
        · have htok : token ≠ "" := by
            intro he
            rw [he] at h1
            exact h1 (pyContains_empty_tok s)
          have hne : s ≠ s ++ token ++ tmTgt.getD a "" :=
            fun he => strAppend_ne s token (tmTgt.getD a "") htok he.symm
          simp only [if_pos h2, if_neg h3]
          show (itemLoop cap token tmTgt (fc + 1) rest).2 =
            fc + diffCount (s :: rest.map (fun x => x.1))
              ((s ++ token ++ tmTgt.getD a "") :: (itemLoop cap token tmTgt (fc + 1) rest).1)
          rw [ih (fc + 1)]
          simp only [diffCount, if_neg hne]
          omega
      · simp only [if_neg h2]
        show (itemLoop cap token tmTgt fc rest).2 =
          fc + diffCount (s :: rest.map (fun x => x.1)) (s :: (itemLoop cap token tmTgt fc rest).1)
        rw [ih fc]
        simp only [diffCount, eq_self_iff_true, if_true]
        omega

lemma itemLoop_quota (cap : ℚ) (token : String) (tmTgt : List String) :
    ∀ data fc, (itemLoop cap token tmTgt fc data).2 = fc ∨
      (((itemLoop cap token tmTgt fc data).2 : ℚ) - 1 < cap) := by
  intro data
  induction data with
  | nil => intro fc; left; simp [itemLoop]
  | cons it rest ih =>
    intro fc
    obtain ⟨s, r, m, a⟩ := it
    simp only [itemLoop]
    by_cases h1 : pyContains token s = true
    · simp only [if_pos h1]
      exact ih fc
    · simp only [if_neg h1]
      by_cases h2 : m = true ∧ r.getD a 0 < 100
      · by_cases h3 : cap ≤ (fc : ℚ)
        · simp only [if_pos h2, if_pos h3]
          simp
        · simp only [if_pos h2, if_neg h3]
          rcases ih (fc + 1) with heq | hlt
          · right
            show ((itemLoop cap token tmTgt (fc + 1) rest).2 : ℚ) - 1 < cap
            rw [heq]
            push_cast
            have := not_le.mp h3
            linarith
          · right
            exact hlt
      · simp only [if_neg h2]
        exact ih fc

lemma processChunk_skip {scorer : String → String → ℚ} {th cap : ℚ} {token : String}
    {tmSrc tmTgt : List String} {fc : ℕ} (h : cap ≤ (fc : ℚ)) (plist : List String) :
    processChunk scorer th cap token tmSrc tmTgt fc plist = some (plist, fc) := by
  rw [processChunk, if_pos h]

lemma processChunk_run {scorer : String → String → ℚ} {th cap : ℚ} {token : String}
    {tmSrc tmTgt : List String} {fc : ℕ} {plist : List String}
    (hTm : tmSrc ≠ []) (h : ¬ cap ≤ (fc : ℚ)) :
    processChunk scorer th cap token tmSrc tmTgt fc plist =
      some (itemLoop cap token tmTgt fc (plist.map (mkItem scorer th tmSrc))) := by
  rw [processChunk, if_neg h]
  have hrows : ∀ r ∈ plist.map (cutoffRow scorer th tmSrc), r ≠ [] := by
    intro r hr
    obtain ⟨s, hs, rfl⟩ := List.mem_map.mp hr
    simpa [cutoffRow] using hTm
  rw [argmaxList_eq_some _ hrows]
  show some (itemLoop cap token tmTgt fc
      (zipItems plist (plist.map (cutoffRow scorer th tmSrc))
        ((plist.map (cutoffRow scorer th tmSrc)).map rowAny)
        ((plist.map (cutoffRow scorer th tmSrc)).map (fun r => (rowArgmax r).getD 0)))) =
    some (itemLoop cap token tmTgt fc (plist.map (mkItem scorer th tmSrc)))
  rw [zipItems_maps (cutoffRow scorer th tmSrc) rowAny (fun r => (rowArgmax r).getD 0) plist]
  rfl

lemma processChunk_nilBatch {scorer : String → String → ℚ} {th cap : ℚ} {token : String}
    {tmSrc tmTgt : List String} {fc : ℕ} :
    processChunk scorer th cap token tmSrc tmTgt fc [] = some ([], fc) := by
  by_cases h : cap ≤ (fc : ℚ)
  · rw [processChunk, if_pos h]
  · rw [processChunk, if_neg h]
    rfl

lemma processChunk_nilTM {scorer : String → String → ℚ} {th cap : ℚ} {token : String}
    {tmTgt : List String} {fc : ℕ} {s : String} {ss : List String}
    (h : ¬ cap ≤ (fc : ℚ)) :
    processChunk scorer th cap token [] tmTgt fc (s :: ss) = none := by
  rw [processChunk, if_neg h]
  simp [cutoffRow, argmaxList, rowArgmax]

lemma processChunk_append (scorer : String → String → ℚ) (th cap : ℚ) (token : String)
    (tmSrc tmTgt : List String) :
    ∀ fc l1 l2, processChunk scorer th cap token tmSrc tmTgt fc (l1 ++ l2) =
      (processChunk scorer th cap token tmSrc tmTgt fc l1).bind (fun p1 =>
        (processChunk scorer th cap token tmSrc tmTgt p1.2 l2).map
          (fun p2 => (p1.1 ++ p2.1, p2.2))) := by
  intro fc l1 l2
  by_cases h : cap ≤ (fc : ℚ)
  · simp [processChunk_skip, h]
  · by_cases hTm : tmSrc = []
    · subst hTm
      cases l1 with
      | nil =>
        cases l2 with
        | nil => simp [processChunk_nilBatch]
        | cons s ss => simp [processChunk_nilBatch, processChunk_nilTM, h]
      | cons s ss => simp [processChunk_nilTM, h]
    · rw [processChunk_run hTm h, processChunk_run hTm h, List.map_append, itemLoop_append]
      simp only [Option.some_bind]
      by_cases h2 :
          cap ≤ ((itemLoop cap token tmTgt fc (l1.map (mkItem scorer th tmSrc))).2 : ℚ)
      · rw [processChunk_skip h2, itemLoop_skip h2, map_mkItem_fst]
        simp
      · rw [processChunk_run hTm h2]
        simp

lemma goChunks_join (scorer : String → String → ℚ) (th cap : ℚ) (token : String)
    (tmSrc tmTgt : List String) :
    ∀ cs fc, goChunks scorer th cap token tmSrc tmTgt fc cs =
      processChunk scorer th cap token tmSrc tmTgt fc cs.join := by
  intro cs
  induction cs with
  | nil => intro fc; simp [goChunks, processChunk_nilBatch]
  | cons c cs ih =>
    intro fc
    have hj : (c :: cs).join = c ++ cs.join := rfl
    rw [hj, processChunk_append]
    cases hpc : processChunk scorer th cap token tmSrc tmTgt fc c with
    | none => simp [goChunks, hpc]
    | some p =>
      obtain ⟨o1, f1⟩ := p
      simp only [goChunks, hpc, ih f1, Option.some_bind]
      cases processChunk scorer th cap token tmSrc tmTgt f1 cs.join with
      | none => rfl
      | some q => rfl

lemma getBatchMatches_eq_single (scorer : String → String → ℚ) (th ratio : ℚ)
    (token : String) (tmSrc tmTgt : List String) (batch : List String) :
    getBatchMatches scorer th ratio token tmSrc tmTgt batch =
      singleChunkAugment scorer th ratio token tmSrc tmTgt batch := by
  rw [getBatchMatches, singleChunkAugment, goChunks_join, miniBatchesOf_join]

lemma rowAny_cutoff_true {scorer : String → String → ℚ} {th : ℚ} {tmSrc : List String}
    {s : String} (h : rowAny (cutoffRow scorer th tmSrc s) = true) :
    ∃ t ∈ tmSrc, th ≤ scorer s t := by
  rw [rowAny, List.any_eq_true] at h
  obtain ⟨x, hx, hx0⟩ := h
  rw [cutoffRow, List.mem_map] at hx
  obtain ⟨t, ht, rfl⟩ := hx
  refine ⟨t, ht, ?_⟩
  by_cases hlt : scorer s t < th
  · rw [if_pos hlt] at hx0
    simp at hx0
  · exact not_lt.mp hlt

lemma rowAny_cutoff_false {scorer : String → String → ℚ} {th : ℚ} {tmSrc : List String}
    {s : String} (h0 : ∀ t ∈ tmSrc, scorer s t < th) :
    rowAny (cutoffRow scorer th tmSrc s) = false := by
  rw [rowAny, List.any_eq_false]
  intro x hx
  rw [cutoffRow, List.mem_map] at hx
  obtain ⟨t, ht, rfl⟩ := hx
  rw [if_pos (h0 t ht)]
  simp

lemma gbm_cases {scorer : String → String → ℚ} {th ratio : ℚ} {token : String}
    {tmSrc tmTgt : List String} {batch out : List String} {n : ℕ}
    (h : getBatchMatches scorer th ratio token tmSrc tmTgt batch = some (out, n)) :
    (out = batch ∧ n = 0) ∨
    (¬ ((batch.length : ℚ) * ratio ≤ ((0 : ℕ) : ℚ)) ∧ tmSrc ≠ [] ∧
      (out, n) = itemLoop ((batch.length : ℚ) * ratio) token tmTgt 0
        (batch.map (mkItem scorer th tmSrc))) := by
  rw [getBatchMatches_eq_single, singleChunkAugment] at h
  by_cases hc : ((batch.length : ℚ) * ratio) ≤ ((0 : ℕ) : ℚ)
  · rw [processChunk_skip hc] at h
    left
    simpa [eq_comm] using (Option.some.injEq _ _ ▸ h :)
  · by_cases hTm : tmSrc = []
    · subst hTm
      cases batch with
      | nil =>
        rw [processChunk_nilBatch] at h
        left
        simpa [eq_comm] using (Option.some.injEq _ _ ▸ h :)
      | cons b bs =>
        rw [processChunk_nilTM hc] at h
        exact Option.noConfusion h
    · right
      rw [processChunk_run hTm hc] at h
      simp only [Option.some.injEq] at h
      exact ⟨hc, hTm, h.symm⟩

lemma gbm_shape {scorer : String → String → ℚ} {th ratio : ℚ} {token : String}
    {tmSrc tmTgt : List String} {batch out : List String} {n : ℕ}
    (h : getBatchMatches scorer th ratio token tmSrc tmTgt batch = some (out, n)) :
    out.length = batch.length ∧
    ∀ i s, batch.get? i = some s →
      out.get? i = some s ∨ ∃ a, out.get? i = some (s ++ token ++ tmTgt.getD a "") := by
  rcases gbm_cases h with ⟨rfl, rfl⟩ | ⟨hc, hTm, heq⟩
  · exact ⟨rfl, fun i s hi => Or.inl hi⟩
  · have h1 : out = (itemLoop ((batch.length : ℚ) * ratio) token tmTgt 0
        (batch.map (mkItem scorer th tmSrc))).1 := congrArg Prod.fst heq
    constructor
    · rw [h1, itemLoop_length, List.length_map]
    · intro i s hi
      have hdat : (batch.map (mkItem scorer th tmSrc)).get? i =
          some (mkItem scorer th tmSrc s) := by
        rw [List.get?_map, hi]
        rfl
      rcases itemLoop_get ((batch.length : ℚ) * ratio) token tmTgt
          (batch.map (mkItem scorer th tmSrc)) 0 i s _ _ _ hdat with hL | ⟨_, _, _, hR⟩
      · left
        rw [h1]
        exact hL
      · right
        exact ⟨_, by rw [h1]; exact hR⟩

lemma gbm_quota {scorer : String → String → ℚ} {th ratio : ℚ} {token : String}
    {tmSrc tmTgt : List String} {batch out : List String} {n : ℕ}
    (h0 : 0 ≤ ratio)
    (h : getBatchMatches scorer th ratio token tmSrc tmTgt batch = some (out, n)) :
    (n : ℚ) < (batch.length : ℚ) * ratio + 1 := by
  have hcap : 0 ≤ (batch.length : ℚ) * ratio :=
    mul_nonneg (Nat.cast_nonneg _) h0
  rcases gbm_cases h with ⟨_, rfl⟩ | ⟨hc, hTm, heq⟩
  · push_cast
    linarith
  · have h2 : n = (itemLoop ((batch.length : ℚ) * ratio) token tmTgt 0
        (batch.map (mkItem scorer th tmSrc))).2 := congrArg Prod.snd heq
    rcases itemLoop_quota ((batch.length : ℚ) * ratio) token tmTgt
        (batch.map (mkItem scorer th tmSrc)) 0 with hz | hlt
    · rw [h2, hz]
      push_cast
      linarith
    · rw [h2]
      linarith [hlt]

lemma gbm_count {scorer : String → String → ℚ} {th ratio : ℚ} {token : String}
    {tmSrc tmTgt : List String} {batch out : List String} {n : ℕ}
    (h : getBatchMatches scorer th ratio token tmSrc tmTgt batch = some (out, n)) :
    n = diffCount batch out := by
  rcases gbm_cases h with ⟨rfl, rfl⟩ | ⟨hc, hTm, heq⟩
  · rw [diffCount_self]
  · have h1 : out = (itemLoop ((batch.length : ℚ) * ratio) token tmTgt 0
        (batch.map (mkItem scorer th tmSrc))).1 := congrArg Prod.fst heq
    have h2 : n = (itemLoop ((batch.length : ℚ) * ratio) token tmTgt 0
        (batch.map (mkItem scorer th tmSrc))).2 := congrArg Prod.snd heq
    rw [h2, itemLoop_count, map_mkItem_fst, ← h1]
    omega

lemma gbm_keep {scorer : String → String → ℚ} {th ratio : ℚ} {token : String}
    {tmSrc tmTgt : List String} {batch out : List String} {n : ℕ} {i : ℕ} {s : String}
    (h : getBatchMatches scorer th ratio token tmSrc tmTgt batch = some (out, n))
    (hi : batch.get? i = some s) (htok : pyContains token s = true) :
    out.get? i = some s := by
  rcases gbm_cases h with ⟨rfl, _⟩ | ⟨hc, hTm, heq⟩
  · exact hi
  · have h1 : out = (itemLoop ((batch.length : ℚ) * ratio) token tmTgt 0
        (batch.map (mkItem scorer th tmSrc))).1 := congrArg Prod.fst heq
    have hdat : (batch.map (mkItem scorer th tmSrc)).get? i =
        some (mkItem scorer th tmSrc s) := by
      rw [List.get?_map, hi]
      rfl
    rcases itemLoop_get ((batch.length : ℚ) * ratio) token tmTgt
        (batch.map (mkItem scorer th tmSrc)) 0 i s _ _ _ hdat with hL | ⟨hf, _, _, _⟩
    · rw [h1]
      exact hL
    · rw [htok] at hf
      exact Bool.noConfusion hf

lemma gbm_sentinel {scorer : String → String → ℚ} {th ratio : ℚ} {token : String}
    {tmSrc tmTgt : List String} {batch out : List String} {n : ℕ} {i : ℕ}
    (h0 : ∀ t ∈ tmSrc, scorer "" t < th)
    (h : getBatchMatches scorer th ratio token tmSrc tmTgt batch = some (out, n))
    (hi : batch.get? i = some "") : out.get? i = some "" := by
  rcases gbm_cases h with ⟨rfl, _⟩ | ⟨hc, hTm, heq⟩
  · exact hi
  · have h1 : out = (itemLoop ((batch.length : ℚ) * ratio) token tmTgt 0
        (batch.map (mkItem scorer th tmSrc))).1 := congrArg Prod.fst heq
    have hdat : (batch.map (mkItem scorer th tmSrc)).get? i =
        some (mkItem scorer th tmSrc "") := by
      rw [List.get?_map, hi]
      rfl
    rcases itemLoop_get ((batch.length : ℚ) * ratio) token tmTgt
        (batch.map (mkItem scorer th tmSrc)) 0 i "" _ _ _ hdat with hL | ⟨_, hm, _, _⟩
    · rw [h1]
      exact hL
    · rw [rowAny_cutoff_false h0] at hm
      exact Bool.noConfusion hm

lemma gbm_total {scorer : String → String → ℚ} {th ratio : ℚ} {token : String}
    {tmSrc tmTgt : List String} {batch : List String} (hTm : tmSrc ≠ []) :
    ∃ p, getBatchMatches scorer th ratio token tmSrc tmTgt batch = some p := by
  rw [getBatchMatches_eq_single, singleChunkAugment]
  by_cases hc : ((batch.length : ℚ) * ratio) ≤ ((0 : ℕ) : ℚ)
  · exact ⟨_, processChunk_skip hc batch⟩
  · exact ⟨_, processChunk_run hTm hc⟩

lemma createTM_cons_two {delim : String} {minLen maxLen : ℕ} {line : String}
    {rest : List String} {s0 t0 : String} (hsp : pySplit delim line = [s0, t0]) :
    createTM delim minLen maxLen (line :: rest) =
      if s0.length < minLen ∨ maxLen < s0.length then createTM delim minLen maxLen rest
      else match createTM delim minLen maxLen rest with
        | Except.error e => Except.error e
        | Except.ok (srcs, tgts) =>
          Except.ok (pyStrip s0 :: srcs, pyStrip t0 :: tgts) := by
  rw [createTM, hsp]

lemma createTM_cons_bad {delim : String} {minLen maxLen : ℕ} {line : String}
    {rest : List String} (hsp : (pySplit delim line).length ≠ 2) :
    createTM delim minLen maxLen (line :: rest) = Except.error line := by
  rw [createTM]
  rcases hsp2 : pySplit delim line with _ | ⟨a, _ | ⟨b, _ | ⟨c, tl⟩⟩⟩
  · rfl
  · rfl
  · exact absurd (by rw [hsp2]; rfl) hsp
  · rfl

lemma createTM_error_iff (delim : String) (minLen maxLen : ℕ) :
    ∀ lines : List String,
      (∃ e, createTM delim minLen maxLen lines = Except.error e) ↔
      (∃ l ∈ lines, (pySplit delim l).length ≠ 2) := by
  intro lines
  induction lines with
  | nil =>
    constructor
    · rintro ⟨e, he⟩
      rw [createTM] at he
      exact Except.noConfusion he
    · rintro ⟨l, hl, _⟩
      simp at hl
  | cons line rest ih =>
    by_cases hlen : (pySplit delim line).length = 2
    · obtain ⟨s0, t0, hsp⟩ := List.length_eq_two.mp hlen
      rw [createTM_cons_two hsp]
      by_cases hf : s0.length < minLen ∨ maxLen < s0.length
      · rw [if_pos hf, ih]
        constructor
        · rintro ⟨l, hl, h2⟩
          exact ⟨l, by simp [hl], h2⟩
        · rintro ⟨l, hl, h2⟩
          simp at hl
          rcases hl with rfl | hl
          · exact absurd hlen h2
          · exact ⟨l, hl, h2⟩
      · rw [if_neg hf]
        cases hrest : createTM delim minLen maxLen rest with
        | error e0 =>
          simp only [hrest]
          constructor
          · intro _
            obtain ⟨l, hl, h2⟩ := ih.mp ⟨e0, hrest⟩
            exact ⟨l, by simp [hl], h2⟩
          · intro _
            exact ⟨e0, rfl⟩
        | ok p =>
          obtain ⟨ss, ts⟩ := p
          simp only [hrest]
          constructor
          · rintro ⟨e, he⟩
            exact Except.noConfusion he
          · rintro ⟨l, hl, h2⟩
            simp at hl
            rcases hl with rfl | hl
            · exact absurd hlen h2
            · obtain ⟨e, he⟩ := ih.mpr ⟨l, hl, h2⟩
              rw [hrest] at he
              exact Except.noConfusion he
    · rw [createTM_cons_bad hlen]
      constructor
      · intro _
        exact ⟨line, by simp, hlen⟩
      · intro _
        exact ⟨line, rfl⟩

/-- The retention test of `_create_tm`, phrased as in the specification: the
raw (pre-strip) source field length lies within `[min_length, max_length]`. -/
def tmKeep (delim : String) (minLen maxLen : ℕ) (l : String) : Bool :=
  decide (minLen ≤ ((pySplit delim l).getD 0 "").length ∧
          ((pySplit delim l).getD 0 "").length ≤ maxLen)

lemma createTM_ok_spec (delim : String) (minLen maxLen : ℕ) :
    ∀ lines srcs tgts, createTM delim minLen maxLen lines = Except.ok (srcs, tgts) →
      srcs.length = tgts.length ∧
      srcs = (lines.filter (tmKeep delim minLen maxLen)).map
        (fun l => pyStrip ((pySplit delim l).getD 0 "")) ∧
      tgts = (lines.filter (tmKeep delim minLen maxLen)).map
        (fun l => pyStrip ((pySplit delim l).getD 1 "")) := by
  intro lines
  induction lines with
  | nil =>
    intro srcs tgts h
    rw [createTM] at h
    simp only [Except.ok.injEq, Prod.mk.injEq] at h
    obtain ⟨h1, h2⟩ := h
    subst h1
    subst h2
    simp
  | cons line rest ih =>
    intro srcs tgts h
    by_cases hlen : (pySplit delim line).length = 2
    · obtain ⟨s0, t0, hsp⟩ := List.length_eq_two.mp hlen
      rw [createTM_cons_two hsp] at h
      by_cases hf : s0.length < minLen ∨ maxLen < s0.length
      · rw [if_pos hf] at h
        obtain ⟨hl, hs, ht⟩ := ih srcs tgts h
        have hkeep : tmKeep delim minLen maxLen line = false := by
          simp only [tmKeep, hsp, List.getD_cons_zero, decide_eq_false_iff_not]
          rintro ⟨ha, hb⟩
          rcases hf with hf | hf <;> omega
        refine ⟨hl, ?_, ?_⟩
        · rw [List.filter_cons, if_neg (by simp [hkeep])]
          exact hs
        · rw [List.filter_cons, if_neg (by simp [hkeep])]
          exact ht
      · rw [if_neg hf] at h
        cases hrest : createTM delim minLen maxLen rest with
        | error e0 =>
          rw [hrest] at h
          exact Except.noConfusion h
        | ok p =>
          obtain ⟨ss, ts⟩ := p
          rw [hrest] at h
          have h2 : (pyStrip s0 :: ss, pyStrip t0 :: ts) = (srcs, tgts) := Except.ok.inj h
          have hs2 : srcs = pyStrip s0 :: ss := (congrArg Prod.fst h2).symm
          have ht2 : tgts = pyStrip t0 :: ts := (congrArg Prod.snd h2).symm
          obtain ⟨hl, hs, ht⟩ := ih ss ts hrest
          obtain ⟨hf1, hf2⟩ := not_or.mp hf
          have hkeep : tmKeep delim minLen maxLen line = true := by
            simp only [tmKeep, hsp, List.getD_cons_zero, decide_eq_true_eq]
            constructor <;> omega
          refine ⟨?_, ?_, ?_⟩
          · rw [hs2, ht2]
            simp [hl]
          · rw [hs2, List.filter_cons, if_pos (by simp [hkeep]), List.map_cons, hsp]
            simp only [List.getD_cons_zero]
            rw [hs]
          · rw [ht2, List.filter_cons, if_pos (by simp [hkeep]), List.map_cons, hsp]
            simp only [List.getD_cons_succ, List.getD_cons_zero]
            rw [ht]
    · rw [createTM_cons_bad hlen] at h
      exact Except.noConfusion h

lemma writeBack_get {α β γ : Type} :
    ∀ (es : List (TrainEx α × β × γ)) (fs : List String) (i : ℕ) e f,
      es.get? i = some e → fs.get? i = some f →
      (writeBack es fs).get? i =
        some (if f ≠ "" then ({ src := pySplit " " f, rest := e.1.rest }, e.2.1, e.2.2)
              else e) := by
  intro es
  induction es with
  | nil => intro fs i e f he hf; simp at he
  | cons e0 es ih =>
    intro fs i e f he hf
    cases fs with
    | nil => simp at hf
    | cons f0 fs =>
      cases i with
      | zero =>
        simp only [List.get?_cons_zero, Option.some.injEq] at he hf
        subst he
        subst hf
        simp [writeBack]
      | succ k =>
        simp only [List.get?_cons_succ] at he hf
        simp only [writeBack, List.get?_cons_succ]
        exact ih fs k e f he hf

lemma batchApply_some {α β γ : Type} {scorer : String → String → ℚ} {th ratio : ℚ}
    {token : String} {tmSrc tmTgt : List String} {minLen maxLen : ℕ}
    {batch outB : List (TrainEx α × β × γ)}
    (h : batchApply scorer th ratio token tmSrc tmTgt minLen maxLen batch = some outB) :
    ∃ fuzzied n,
      getBatchMatches scorer th ratio token tmSrc tmTgt
        (batch.map (fun e => segmentOf minLen maxLen e.1.src)) = some (fuzzied, n) ∧
      fuzzied.length = batch.length ∧ outB = writeBack batch fuzzied := by
  rw [batchApply] at h
  cases hg : getBatchMatches scorer th ratio token tmSrc tmTgt
      (batch.map (fun e => segmentOf minLen maxLen e.1.src)) with
  | none =>
    rw [hg] at h
    exact Option.noConfusion h
  | some p =>
    obtain ⟨fz, n⟩ := p
    rw [hg] at h
    have h2 : (if (batch.map (fun e => segmentOf minLen maxLen e.1.src)).length = fz.length
        then some (writeBack batch fz) else none) = some outB := h
    by_cases hlen : (batch.map (fun e => segmentOf minLen maxLen e.1.src)).length = fz.length
    · rw [if_pos hlen] at h2
      refine ⟨fz, n, rfl, ?_, (Option.some.inj h2).symm⟩
      rw [List.length_map] at hlen
      omega
    · rw [if_neg hlen] at h2
      exact Option.noConfusion h2

/-- A deterministic concrete scorer standing in for `fuzz.ratio` in witness
evaluations: the spec's scenario pair scores 91, identical strings score 100,
everything else 0. -/
def demoScorer (s t : String) : ℚ :=
  if s = "hello world" ∧ t = "hello worlX" then 91 else if s = t then 100 else 0

/-- Claim C1, as stated, is false: with one item and ratio 1/2 the cap is 0.5,
yet one whole item is augmented, so the number of augmented items (1) exceeds
`cap = len(batch) * ratio` (0.5): the quota check runs before each increment,
so a fractional cap is overshot. -/
theorem fm_C1_counterexample :
    getBatchMatches demoScorer 70 (1/2) "[F]" ["hello worlX"] ["bonjour mondeX"]
      ["hello world"] = some (["hello world[F]bonjour mondeX"], 1) ∧
    (((["hello world"] : List String).length : ℚ) * (1/2) < 1) := by
  constructor
  · with_unfolding_all decide
  · with_unfolding_all decide

/-- Claim C1 (amended): for every batch and ratio ≥ 0, the final
`fuzzy_count` n satisfies n < len(batch)·ratio + 1 (the unrounded comparison
`fuzzy_count >= len(batch) * ratio` is checked before each augmentation, so
the cap is exceeded by strictly less than one item); when the cap is an
integer, n never exceeds it. -/
theorem fm_C1_quota_bound {scorer : String → String → ℚ} {th ratio : ℚ}
    {token : String} {tmSrc tmTgt : List String} {batch out : List String} {n : ℕ}
    (h0 : 0 ≤ ratio)
    (h : getBatchMatches scorer th ratio token tmSrc tmTgt batch = some (out, n)) :
    (n : ℚ) < (batch.length : ℚ) * ratio + 1 ∧
    (∀ k : ℕ, (batch.length : ℚ) * ratio = (k : ℚ) → n ≤ k) := by
  refine ⟨gbm_quota h0 h, fun k hk => ?_⟩
  have h1 := gbm_quota h0 h
  rw [hk] at h1
  exact_mod_cast Nat.lt_succ_iff.mp (by exact_mod_cast h1)

theorem fm_C1_quota_bound_witness :
    ((1 : ℕ) : ℚ) < ((["hello world"] : List String).length : ℚ) * 1 + 1 ∧
    (∀ k : ℕ, ((["hello world"] : List String).length : ℚ) * 1 = (k : ℚ) →
      (1 : ℕ) ≤ k) :=
  @fm_C1_quota_bound demoScorer 70 1 "[F]" ["hello worlX"] ["bonjour mondeX"]
    ["hello world"] ["hello world[F]bonjour mondeX"] 1
    (by with_unfolding_all decide) (by with_unfolding_all decide)

/-- Claim C2: with a nonempty TM the augmenter always returns, and whenever
`_get_batch_matches` returns (including on the empty batch), the output has
exactly the length of the input batch and item i of the output derives from
item i of the input — either unchanged or with the fuzzy token and a TM
target appended. -/
theorem fm_C2_length_order (scorer : String → String → ℚ) (th ratio : ℚ)
    (token : String) (tmSrc tmTgt : List String) (batch : List String) :
    (tmSrc ≠ [] →
      ∃ p, getBatchMatches scorer th ratio token tmSrc tmTgt batch = some p) ∧
    (∀ out n, getBatchMatches scorer th ratio token tmSrc tmTgt batch = some (out, n) →
      out.length = batch.length ∧
      ∀ i s, batch.get? i = some s →
        out.get? i = some s ∨
        ∃ a, out.get? i = some (s ++ token ++ tmTgt.getD a "")) :=
  ⟨fun hTm => gbm_total hTm, fun _ _ h => gbm_shape h⟩

theorem fm_C2_length_order_witness :
    ((["hello worlX"] : List String) ≠ [] →
      ∃ p, getBatchMatches demoScorer 70 1 "[F]" ["hello worlX"] ["bonjour mondeX"]
        ["hello world", "zzz"] = some p) ∧
    (∀ out n, getBatchMatches demoScorer 70 1 "[F]" ["hello worlX"] ["bonjour mondeX"]
        ["hello world", "zzz"] = some (out, n) →
      out.length = (["hello world", "zzz"] : List String).length ∧
      ∀ i s, (["hello world", "zzz"] : List String).get? i = some s →
        out.get? i = some s ∨
        ∃ a, out.get? i = some (s ++ "[F]" ++
          (["bonjour mondeX"] : List String).getD a "")) :=
  fm_C2_length_order demoScorer 70 1 "[F]" ["hello worlX"] ["bonjour mondeX"]
    ["hello world", "zzz"]

/-- Claim C3 fails on the code: a batch of 10001 items is split into
`len // chunk_size = 1` mini-batch, i.e. a single chunk of 10001 items, so
more than `chunk_size = 10000` items are scored in one scorer call. -/
theorem fm_C3_oversized_chunk :
    ∃ c ∈ miniBatchesOf (List.replicate 10001 "x"), chunkSize < c.length := by
  have hn : (if chunkSize < (List.replicate 10001 "x" : List String).length
      then (List.replicate 10001 "x" : List String).length / chunkSize else 1) = 1 := by
    rw [List.length_replicate]
    decide
  have hsz : splitSizes 10001 1 = [10001] := by decide
  have htake : (List.replicate 10001 "x" : List String).take 10001 =
      List.replicate 10001 "x" := by
    apply List.take_of_length_le
    rw [List.length_replicate]
  have h1 : miniBatchesOf (List.replicate 10001 "x") = [List.replicate 10001 "x"] := by
    rw [miniBatchesOf, arraySplit, hn, List.length_replicate, hsz, takeChunks, takeChunks,
      htake]
  rw [h1]
  refine ⟨List.replicate 10001 "x", List.mem_cons_self _ _, ?_⟩
  rw [List.length_replicate]
  decide

/-- Claim C4 fails on the code: the class body of `FuzzyMatchConfig` assigns
`fuzzymatch_min_length` twice (the second assignment, default 70 and described
as the max length, overwrites the first, default 4), and never declares
`fuzzymatch_max_length` even though `_parse_config` reads it. -/
theorem fm_C4_config_collision :
    classFieldValue fuzzyMatchConfigFields "fuzzymatch_min_length" = some "70" ∧
    classFieldValue fuzzyMatchConfigFields "fuzzymatch_max_length" = none ∧
    "fuzzymatch_max_length" ∈ parseConfigReads ∧
    "fuzzymatch_min_length" ∈ parseConfigReads := by
  refine ⟨by decide, by decide, by decide, by decide⟩

/-- Claim C5, as stated, is false: a line containing the delimiter twice does
not load as two fields split at the first occurrence — Python splits on every
occurrence and the three-field unpacking raises `ValueError`, aborting the
load. -/
theorem fm_C5_counterexample :
    createTM "\t" 4 70 ["abcd\tefg\thij"] = Except.error "abcd\tefg\thij" := by rfl

/-- Claim C5 (amended): each TM line is split on every occurrence of the
delimiter; the load fails (fatally, with no partial TM returned) exactly when
some line does not split into exactly two fields — in particular a line with
no delimiter, or with two or more delimiters, aborts the load. -/
theorem fm_C5_two_field_error (delim : String) (minLen maxLen : ℕ)
    (lines : List String) :
    (∃ e, createTM delim minLen maxLen lines = Except.error e) ↔
    (∃ l ∈ lines, (pySplit delim l).length ≠ 2) :=
  createTM_error_iff delim minLen maxLen lines

/-- Claim C6: in a scored chunk, an item is changed only when its score row
has a nonzero entry (so some TM score meets or exceeds the threshold) and the
best score is strictly below 100; the appended target is the one at the
first-encountered maximal-scoring TM index (no earlier index scores as high,
and no index scores higher). -/
theorem fm_C6_selection {scorer : String → String → ℚ} {th cap : ℚ}
    {token : String} {tmSrc tmTgt : List String} {fc : ℕ} {plist out : List String}
    {n : ℕ} {i : ℕ} {s : String}
    (h : processChunk scorer th cap token tmSrc tmTgt fc plist = some (out, n))
    (hi : plist.get? i = some s) (hne : out.get? i ≠ some s) :
    rowAny (cutoffRow scorer th tmSrc s) = true ∧
    (∃ t ∈ tmSrc, th ≤ scorer s t) ∧
    (cutoffRow scorer th tmSrc s).getD
      ((rowArgmax (cutoffRow scorer th tmSrc s)).getD 0) 0 < 100 ∧
    out.get? i = some (s ++ token ++
      tmTgt.getD ((rowArgmax (cutoffRow scorer th tmSrc s)).getD 0) "") ∧
    (∀ j, j < (cutoffRow scorer th tmSrc s).length →
      (cutoffRow scorer th tmSrc s).getD j 0 ≤
        (cutoffRow scorer th tmSrc s).getD
          ((rowArgmax (cutoffRow scorer th tmSrc s)).getD 0) 0) ∧
    (∀ j, j < (rowArgmax (cutoffRow scorer th tmSrc s)).getD 0 →
      (cutoffRow scorer th tmSrc s).getD j 0 <
        (cutoffRow scorer th tmSrc s).getD
          ((rowArgmax (cutoffRow scorer th tmSrc s)).getD 0) 0) := by
  by_cases hc : cap ≤ (fc : ℚ)
  · rw [processChunk_skip hc] at h
    have hout : out = plist := (congrArg Prod.fst (Option.some.inj h)).symm
    rw [hout] at hne
    exact absurd hi hne
  · by_cases hTm : tmSrc = []
    · subst hTm
      cases plist with
      | nil => simp at hi
      | cons b bs =>
        rw [processChunk_nilTM hc] at h
        exact Option.noConfusion h
    · rw [processChunk_run hTm hc] at h
      have hout : out = (itemLoop cap token tmTgt fc
          (plist.map (mkItem scorer th tmSrc))).1 :=
        congrArg Prod.fst (Option.some.inj h).symm
      have hdat : (plist.map (mkItem scorer th tmSrc)).get? i =
          some (mkItem scorer th tmSrc s) := by
        rw [List.get?_map, hi]
        rfl
      rcases itemLoop_get cap token tmTgt (plist.map (mkItem scorer th tmSrc)) fc i s
          _ _ _ hdat with hL | ⟨_, hm, hlt, hout2⟩
      · rw [← hout] at hL
        exact absurd hL hne
      · have hrne : cutoffRow scorer th tmSrc s ≠ [] := by
          intro hrnil
          rw [hrnil] at hm
          exact Bool.noConfusion hm
        obtain ⟨a, ha⟩ := rowArgmax_ne_none _ hrne
        refine ⟨hm, rowAny_cutoff_true hm, hlt, by rw [hout]; exact hout2, ?_, ?_⟩
        · intro j hj
          rw [ha]
          exact rowArgmax_le _ a ha j hj
        · intro j hj
          rw [ha] at hj ⊢
          exact rowArgmax_first _ a ha j hj

theorem fm_C6_selection_witness :
    rowAny (cutoffRow demoScorer 70 ["hello worlX"] "hello world") = true ∧
    (∃ t ∈ (["hello worlX"] : List String), (70 : ℚ) ≤ demoScorer "hello world" t) ∧
    (cutoffRow demoScorer 70 ["hello worlX"] "hello world").getD
      ((rowArgmax (cutoffRow demoScorer 70 ["hello worlX"] "hello world")).getD 0) 0
        < 100 ∧
    (["hello world[F]bonjour mondeX"] : List String).get? 0 =
      some ("hello world" ++ "[F]" ++ (["bonjour mondeX"] : List String).getD
        ((rowArgmax (cutoffRow demoScorer 70 ["hello worlX"] "hello world")).getD 0)
          "") ∧
    (∀ j, j < (cutoffRow demoScorer 70 ["hello worlX"] "hello world").length →
      (cutoffRow demoScorer 70 ["hello worlX"] "hello world").getD j 0 ≤
        (cutoffRow demoScorer 70 ["hello worlX"] "hello world").getD
          ((rowArgmax (cutoffRow demoScorer 70 ["hello worlX"] "hello world")).getD 0)
            0) ∧
    (∀ j, j < (rowArgmax (cutoffRow demoScorer 70 ["hello worlX"] "hello world")).getD
        0 →
      (cutoffRow demoScorer 70 ["hello worlX"] "hello world").getD j 0 <
        (cutoffRow demoScorer 70 ["hello worlX"] "hello world").getD
          ((rowArgmax (cutoffRow demoScorer 70 ["hello worlX"] "hello world")).getD 0)
            0) :=
  @fm_C6_selection demoScorer 70 1 "[F]" ["hello worlX"] ["bonjour mondeX"] 0
    ["hello world"] ["hello world[F]bonjour mondeX"] 1 0 "hello world"
    (by with_unfolding_all decide) (by with_unfolding_all decide)
    (by with_unfolding_all decide)

/-- Claim C7: whenever `_get_batch_matches` returns, every item that already
contains the fuzzy token is returned unchanged, and the final `fuzzy_count`
equals the number of positions actually changed — so skipped items are never
counted toward the quota. -/
theorem fm_C7_idempotence {scorer : String → String → ℚ} {th ratio : ℚ}
    {token : String} {tmSrc tmTgt : List String} {batch out : List String} {n : ℕ}
    (h : getBatchMatches scorer th ratio token tmSrc tmTgt batch = some (out, n)) :
    (∀ i s, batch.get? i = some s → pyContains token s = true →
      out.get? i = some s) ∧
    n = diffCount batch out :=
  ⟨fun _ _ hi ht => gbm_keep h hi ht, gbm_count h⟩

theorem fm_C7_idempotence_witness :
    (∀ i s, (["a[F]b"] : List String).get? i = some s →
      pyContains "[F]" s = true → (["a[F]b"] : List String).get? i = some s) ∧
    (0 : ℕ) = diffCount ["a[F]b"] ["a[F]b"] :=
  @fm_C7_idempotence demoScorer 70 1 "[F]" ["hello worlX"] ["bonjour mondeX"]
    ["a[F]b"] ["a[F]b"] 0 (by with_unfolding_all decide)

/-- Claim C8: a successfully loaded TM consists of exactly the lines whose raw
(pre-strip) source field length lies within `[min_length, max_length]`, with
the filter applied to the source field only, both retained fields stripped,
and the source and target sequences index-aligned with equal lengths. -/
theorem fm_C8_tm_content {delim : String} {minLen maxLen : ℕ}
    {lines srcs tgts : List String}
    (h : createTM delim minLen maxLen lines = Except.ok (srcs, tgts)) :
    srcs.length = tgts.length ∧
    srcs = (lines.filter (tmKeep delim minLen maxLen)).map
      (fun l => pyStrip ((pySplit delim l).getD 0 "")) ∧
    tgts = (lines.filter (tmKeep delim minLen maxLen)).map
      (fun l => pyStrip ((pySplit delim l).getD 1 "")) :=
  createTM_ok_spec delim minLen maxLen lines srcs tgts h

theorem fm_C8_tm_content_witness :
    (["abcd", "abcde"] : List String).length = (["efg", "fgh"] : List String).length ∧
    (["abcd", "abcde"] : List String) =
      ((["abcd\tefg\n", "ab\tcd", "abcde\tfgh "] : List String).filter
        (tmKeep "\t" 4 70)).map (fun l => pyStrip ((pySplit "\t" l).getD 0 "")) ∧
    (["efg", "fgh"] : List String) =
      ((["abcd\tefg\n", "ab\tcd", "abcde\tfgh "] : List String).filter
        (tmKeep "\t" 4 70)).map (fun l => pyStrip ((pySplit "\t" l).getD 1 "")) :=
  @fm_C8_tm_content "\t" 4 70 ["abcd\tefg\n", "ab\tcd", "abcde\tfgh "]
    ["abcd", "abcde"] ["efg", "fgh"] (by rfl)

/-- Claim C9: the chunked `_get_batch_matches` computes exactly the same
result (augmented list and final count, or failure) as processing the entire
batch as a single chunk with the same cap — the chunk pagination, including
the early chunk skip, does not change the selection algorithm's outcome. -/
theorem fm_C9_single_chunk_equiv (scorer : String → String → ℚ) (th ratio : ℚ)
    (token : String) (tmSrc tmTgt : List String) (batch : List String) :
    getBatchMatches scorer th ratio token tmSrc tmTgt batch =
      singleChunkAugment scorer th ratio token tmSrc tmTgt batch :=
  getBatchMatches_eq_single scorer th ratio token tmSrc tmTgt batch

/-- Claim C10: when the scorer rates the empty string below the threshold
against every TM source (as `fuzz.ratio` does for any nonempty TM entry), an
example whose joined source length is not strictly between the bounds is
replaced by the empty-string sentinel, is never selected as a match, and
passes through `batch_apply` with its source field and all other fields
untouched; and every example is either returned unchanged or has exactly its
source field overwritten with the whitespace-split of a nonempty augmented
string. -/
theorem fm_C10_sentinel_frame {α β γ : Type} {scorer : String → String → ℚ}
    {th ratio : ℚ} {token : String} {tmSrc tmTgt : List String} {minLen maxLen : ℕ}
    {batch outB : List (TrainEx α × β × γ)}
    (h0 : ∀ t ∈ tmSrc, scorer "" t < th)
    (h : batchApply scorer th ratio token tmSrc tmTgt minLen maxLen batch = some outB) :
    (∀ i e, batch.get? i = some e →
      ¬ (minLen < (String.intercalate " " e.1.src).length ∧
         (String.intercalate " " e.1.src).length < maxLen) →
      segmentOf minLen maxLen e.1.src = "" ∧ outB.get? i = some e) ∧
    (∀ i e, batch.get? i = some e →
      outB.get? i = some e ∨
      ∃ f : String, f ≠ "" ∧
        outB.get? i = some (⟨pySplit " " f, e.1.rest⟩, e.2.1, e.2.2)) := by
  obtain ⟨fz, n, hg, hflen, hout⟩ := batchApply_some h
  have hffind : ∀ i (e : TrainEx α × β × γ), batch.get? i = some e →
      ∃ f, fz.get? i = some f := by
    intro i e he
    have hlt : i < batch.length := by
      by_contra hge
      rw [List.get?_eq_none.mpr (by omega)] at he
      exact Option.noConfusion he
    cases hf : fz.get? i with
    | none =>
      rw [List.get?_eq_none] at hf
      omega
    | some f => exact ⟨f, rfl⟩
  constructor
  · intro i e he hrange
    have hseg : segmentOf minLen maxLen e.1.src = "" := by
      rw [segmentOf, if_neg hrange]
    refine ⟨hseg, ?_⟩
    have hsegsi : (batch.map (fun e => segmentOf minLen maxLen e.1.src)).get? i =
        some "" := by
      rw [List.get?_map, he]
      simp [hseg]
    have hfz : fz.get? i = some "" := gbm_sentinel h0 hg hsegsi
    rw [hout, writeBack_get batch fz i e "" he hfz]
    simp
  · intro i e he
    obtain ⟨f, hf⟩ := hffind i e he
    rw [hout, writeBack_get batch fz i e f he hf]
    by_cases hfe : f = ""
    · left
      rw [if_neg (by simp [hfe])]
    · right
      exact ⟨f, hfe, by rw [if_pos hfe]⟩

theorem fm_C10_sentinel_frame_witness :
    (∀ i (e : TrainEx ℕ × ℕ × ℕ),
      ([({ src := ["ab"], rest := 7 }, 1, 2)] :
        List (TrainEx ℕ × ℕ × ℕ)).get? i = some e →
      ¬ ((4 : ℕ) < (String.intercalate " " e.1.src).length ∧
         (String.intercalate " " e.1.src).length < 70) →
      segmentOf 4 70 e.1.src = "" ∧
      ([({ src := ["ab"], rest := 7 }, 1, 2)] :
        List (TrainEx ℕ × ℕ × ℕ)).get? i = some e) ∧
    (∀ i (e : TrainEx ℕ × ℕ × ℕ),
      ([({ src := ["ab"], rest := 7 }, 1, 2)] :
        List (TrainEx ℕ × ℕ × ℕ)).get? i = some e →
      ([({ src := ["ab"], rest := 7 }, 1, 2)] :
        List (TrainEx ℕ × ℕ × ℕ)).get? i = some e ∨
      ∃ f : String, f ≠ "" ∧
        ([({ src := ["ab"], rest := 7 }, 1, 2)] :
          List (TrainEx ℕ × ℕ × ℕ)).get? i =
          some (⟨pySplit " " f, e.1.rest⟩, e.2.1, e.2.2)) :=
  @fm_C10_sentinel_frame ℕ ℕ ℕ demoScorer 70 1 "[F]" ["hello worlX"]
    ["bonjour mondeX"] 4 70 [({ src := ["ab"], rest := 7 }, 1, 2)]
    [({ src := ["ab"], rest := 7 }, 1, 2)]
    (by with_unfolding_all decide) (by with_unfolding_all decide)

example : pyContains "" "abc" = true := by decide
example : pyContains "[F]" "a[F]b" = true := by decide
example : pyContains "[F]" "ab" = false := by decide
example : rowArgmax [3, 7, 7, 2] = some 1 := by decide
example : splitSizes 10001 1 = [10001] := by decide
example : splitSizes 5 2 = [3, 2] := by decide
example : arraySplit [1, 2, 3, 4, 5] 2 = [[1, 2, 3], [4, 5]] := by decide
example : pySplit "\t" "ab\tcd" = ["ab", "cd"] := by decide
example : pySplit "\t" "ab\tcd\tef" = ["ab", "cd", "ef"] := by decide
example : pySplit "\t" "abcd" = ["abcd"] := by decide
example : pyStrip "  ab\n" = "ab" := by decide
example : createTM "\t" 4 70 ["abcd\tefg\n", "ab\tcd", "abcde\tfgh "] =
    Except.ok (["abcd", "abcde"], ["efg", "fgh"]) := by rfl
example : createTM "\t" 4 70 ["abcd\tefg\thij"] = Except.error "abcd\tefg\thij" := by rfl
